import Mathlib

/-!
Shallow embedding of the KBSkills core (skill matcher, topic-agent pipeline
helpers, retry wrapper, skill loader) and proofs of the specification claims.

Python strings are modelled as `String` (with character-level helpers on
`List Char` mirroring CPython semantics of `str.strip`, `str.split("\n")`,
`"\n".join`, `str.find`/`str.rfind` and slicing).  Floating-point arithmetic
is modelled over `ℝ`; YAML/JSON numbers over `ℚ`.  External services
(Gemini embedding/LLM calls, the regex engine, `json.loads`, the knowledge
store) are parameters of the embedded functions, so theorems quantify over
every possible behaviour of those collaborators.
-/

namespace KBS

/-- Characters Python `str.strip()` removes (modelled by `Char.isWhitespace`). -/
def pyWS (c : Char) : Bool := c.isWhitespace

/-- Model of Python `str.strip()` on a character list: drop whitespace from
both ends. -/
def pyStrip (s : List Char) : List Char :=
  ((s.dropWhile pyWS).reverse.dropWhile pyWS).reverse

/-- Model of Python `str.split(sep)` for a one-character separator: no
collapsing of empty fields, `"".split(sep) == [""]`. -/
def pySplit (sep : Char) : List Char → List (List Char)
  | [] => [[]]
  | c :: cs =>
    match pySplit sep cs with
    | [] => [[]]
    | l :: ls => if c = sep then [] :: l :: ls else (c :: l) :: ls

/-- Model of Python `sep.join(parts)` for a one-character separator. -/
def pyJoin (sep : Char) : List (List Char) → List Char
  | [] => []
  | [l] => l
  | l :: ls => l ++ sep :: pyJoin sep ls

/-- Model of Python `str.find(ch)`: index of the first occurrence
(`none` models `-1`). -/
def pyFind (ch : Char) : List Char → Option Nat
  | [] => none
  | c :: cs => if c = ch then some 0 else (pyFind ch cs).map (· + 1)

/-- Model of Python `str.rfind(ch)`: index of the last occurrence
(`none` models `-1`). -/
def pyRFind (ch : Char) : List Char → Option Nat
  | [] => none
  | c :: cs =>
    match pyRFind ch cs with
    | some i => some (i + 1)
    | none => if c = ch then some 0 else none

/-- The markdown fence marker three-backtick string. -/
def fence : List Char := "```".data

/-- Line-level step of `_extract_json`: `if lines[0].startswith("```"): lines = lines[1:]`. -/
def dropFirstFence (ls : List (List Char)) : List (List Char) :=
  match ls with
  | [] => []
  | l0 :: rest => if fence.isPrefixOf l0 then rest else l0 :: rest

/-- Line-level step of `_extract_json`:
`if lines and lines[-1].strip() == "```": lines = lines[:-1]`. -/
def dropLastFence (ls : List (List Char)) : List (List Char) :=
  match ls.getLast? with
  | some ll => if pyStrip ll = fence then ls.dropLast else ls
  | none => ls

/-- The fence-removal block of `_extract_json` (topic_agent.py lines 253-261):
if the text starts with a fence, split into lines, drop the first line when it
starts with a fence and the last line when it strips to exactly a fence, and
re-join. -/
def deFence (t : List Char) : List Char :=
  if fence.isPrefixOf t then
    pyJoin '\n' (dropLastFence (dropFirstFence (pySplit '\n' t)))
  else t

/-- The bracket-search step of `_extract_json` (topic_agent.py lines 263-269):
take the inclusive slice from the first `[` to the last `]` when both exist in
that order, else return the text unchanged. -/
def bracketSlice (t : List Char) : List Char :=
  match pyFind '[' t, pyRFind ']' t with
  | some s, some e => if s < e then (t.drop s).take (e + 1 - s) else t
  | _, _ => t

/-- `_extract_json` (topic_agent.py lines 248-269) on character lists:
strip, de-fence, bracket-slice. -/
def extractJsonList (t : List Char) : List Char :=
  bracketSlice (deFence (pyStrip t))

/-- `_extract_json` on `String`. -/
def extractJson (s : String) : String :=
  String.mk (extractJsonList s.data)

theorem pySplit_ne_nil (sep : Char) (l : List Char) : pySplit sep l ≠ [] := by
  cases l with
  | nil => simp [pySplit]
  | cons c cs =>
    simp only [pySplit]
    rcases h : pySplit sep cs with _ | ⟨l, ls⟩
    · simp
    · by_cases hc : c = sep <;> simp [hc]

theorem pyJoin_pySplit (sep : Char) (l : List Char) :
    pyJoin sep (pySplit sep l) = l := by
  induction l with
  | nil => simp [pySplit, pyJoin]
  | cons c cs ih =>
    simp only [pySplit]
    rcases h : pySplit sep cs with _ | ⟨m, ms⟩
    · exact absurd h (pySplit_ne_nil sep cs)
    · rw [h] at ih
      by_cases hc : c = sep
      · subst hc
        simpa [pyJoin] using ih
      · simp only [if_neg hc]
        cases ms with
        | nil => simpa [pyJoin] using ih
        | cons m2 ms2 => simpa [pyJoin] using ih

/-- Splitting at an explicit separator occurrence splits cleanly. -/
theorem pySplit_append (sep : Char) (a b : List Char) :
    pySplit sep (a ++ sep :: b) = pySplit sep a ++ pySplit sep b := by
  induction a with
  | nil =>
    simp only [List.nil_append, pySplit]
    rcases h : pySplit sep b with _ | ⟨l, ls⟩
    · exact absurd h (pySplit_ne_nil sep b)
    · simp
  | cons c cs ih =>
    simp only [List.cons_append, pySplit, List.append_eq]
    rw [ih]
    rcases h : pySplit sep cs with _ | ⟨l, ls⟩
    · exact absurd h (pySplit_ne_nil sep cs)
    · by_cases hc : c = sep <;> simp [hc]

/-- If the list contains no separator, the split is the singleton list. -/
theorem pySplit_eq_single (sep : Char) (a : List Char) (h : sep ∉ a) :
    pySplit sep a = [a] := by
  induction a with
  | nil => simp [pySplit]
  | cons c cs ih =>
    simp only [List.mem_cons, not_or] at h
    simp [pySplit, ih h.2, Ne.symm h.1]

theorem dropWhile_exists_append (p : Char → Bool) (l : List Char) :
    ∃ u, u ++ l.dropWhile p = l := by
  induction l with
  | nil => exact ⟨[], rfl⟩
  | cons c cs ih =>
    by_cases hc : p c
    · rcases ih with ⟨u, hu⟩
      exact ⟨c :: u, by simp [List.dropWhile, hc, hu]⟩
    · exact ⟨[], by simp [List.dropWhile, hc]⟩

theorem pyStrip_exists_append (l : List Char) :
    ∃ u v, u ++ pyStrip l ++ v = l := by
  rcases dropWhile_exists_append pyWS l with ⟨u, hu⟩
  rcases dropWhile_exists_append pyWS (l.dropWhile pyWS).reverse with ⟨w, hw⟩
  refine ⟨u, w.reverse, ?_⟩
  have h2 : pyStrip l ++ w.reverse = l.dropWhile pyWS := by
    have := congrArg List.reverse hw
    simpa [pyStrip] using this
  calc u ++ pyStrip l ++ w.reverse = u ++ (pyStrip l ++ w.reverse) := by
        rw [List.append_assoc]
    _ = u ++ l.dropWhile pyWS := by rw [h2]
    _ = l := hu

theorem pyJoin_cons_of_ne (sep : Char) (l0 : List Char) (ls : List (List Char))
    (h : ls ≠ []) : pyJoin sep (l0 :: ls) = l0 ++ sep :: pyJoin sep ls := by
  cases ls with
  | nil => exact absurd rfl h
  | cons a as => rfl

theorem dropFirstFence_exists (ls : List (List Char)) :
    ∃ u, u ++ pyJoin '\n' (dropFirstFence ls) = pyJoin '\n' ls := by
  cases ls with
  | nil => exact ⟨[], rfl⟩
  | cons l0 rest =>
    by_cases h0 : fence.isPrefixOf l0
    · cases rest with
      | nil => exact ⟨l0, by simp [dropFirstFence, h0, pyJoin]⟩
      | cons r rs =>
        exact ⟨l0 ++ ['\n'], by
          simp [dropFirstFence, h0, pyJoin_cons_of_ne '\n' l0 (r :: rs) (by simp)]⟩
    · exact ⟨[], by simp [dropFirstFence, h0]⟩

theorem pyJoin_dropLast_exists (sep : Char) (ls : List (List Char)) :
    ∃ v, pyJoin sep ls.dropLast ++ v = pyJoin sep ls := by
  induction ls with
  | nil => exact ⟨[], rfl⟩
  | cons l rest ih =>
    cases rest with
    | nil => exact ⟨l, by simp [pyJoin]⟩
    | cons r rs =>
      rw [List.dropLast_cons₂, pyJoin_cons_of_ne sep l (r :: rs) (by simp)]
      rcases hdl : (r :: rs).dropLast with _ | ⟨d, ds⟩
      · refine ⟨sep :: pyJoin sep (r :: rs), ?_⟩
        simp [pyJoin]
      · obtain ⟨v, hv⟩ := ih
        rw [hdl] at hv
        refine ⟨v, ?_⟩
        rw [pyJoin_cons_of_ne sep l (d :: ds) (by simp)]
        simp only [List.append_assoc, List.cons_append]
        rw [hv]

theorem dropLastFence_exists (ls : List (List Char)) :
    ∃ v, pyJoin '\n' (dropLastFence ls) ++ v = pyJoin '\n' ls := by
  unfold dropLastFence
  cases hlast : ls.getLast? with
  | none => exact ⟨[], by simp⟩
  | some ll =>
    by_cases hll : pyStrip ll = fence
    · simpa [hll] using pyJoin_dropLast_exists '\n' ls
    · exact ⟨[], by simp [hll]⟩

theorem deFence_exists_append (t : List Char) :
    ∃ u v, u ++ deFence t ++ v = t := by
  unfold deFence
  by_cases hf : fence.isPrefixOf t
  · simp only [hf, if_true]
    rcases dropFirstFence_exists (pySplit '\n' t) with ⟨u, hu⟩
    rcases dropLastFence_exists (dropFirstFence (pySplit '\n' t)) with ⟨v, hv⟩
    refine ⟨u, v, ?_⟩
    calc u ++ pyJoin '\n' (dropLastFence (dropFirstFence (pySplit '\n' t))) ++ v
        = u ++ (pyJoin '\n' (dropLastFence (dropFirstFence (pySplit '\n' t))) ++ v) := by
          rw [List.append_assoc]
      _ = u ++ pyJoin '\n' (dropFirstFence (pySplit '\n' t)) := by rw [hv]
      _ = pyJoin '\n' (pySplit '\n' t) := hu
      _ = t := pyJoin_pySplit '\n' t
  · exact ⟨[], [], by simp [hf]⟩

theorem bracketSlice_exists_append (t : List Char) :
    ∃ u v, u ++ bracketSlice t ++ v = t := by
  unfold bracketSlice
  rcases pyFind '[' t with _ | s
  · exact ⟨[], [], by simp⟩
  · rcases pyRFind ']' t with _ | e
    · exact ⟨[], [], by simp⟩
    · by_cases hlt : s < e
      · refine ⟨t.take s, (t.drop s).drop (e + 1 - s), ?_⟩
        simp [hlt, List.take_append_drop]
      · exact ⟨[], [], by simp [hlt]⟩

/-- C10: the structured-text extractor only ever returns a contiguous
substring of its input: each of its three steps (strip, de-fence,
bracket-slice) selects a contiguous region of what it was given. -/
theorem extractJson_isSubstring (s : String) :
    (extractJson s).data <:+: s.data := by
  rcases pyStrip_exists_append s.data with ⟨u1, v1, h1⟩
  rcases deFence_exists_append (pyStrip s.data) with ⟨u2, v2, h2⟩
  rcases bracketSlice_exists_append (deFence (pyStrip s.data)) with ⟨u3, v3, h3⟩
  refine ⟨u1 ++ u2 ++ u3, v3 ++ v2 ++ v1, ?_⟩
  show u1 ++ u2 ++ u3 ++ extractJsonList s.data ++ (v3 ++ v2 ++ v1) = s.data
  calc u1 ++ u2 ++ u3 ++ extractJsonList s.data ++ (v3 ++ v2 ++ v1)
      = u1 ++ ((u2 ++ ((u3 ++ bracketSlice (deFence (pyStrip s.data)) ++ v3)) ++ v2)) ++ v1 := by
        simp [extractJsonList, List.append_assoc]
    _ = u1 ++ (u2 ++ deFence (pyStrip s.data) ++ v2) ++ v1 := by rw [h3]
    _ = u1 ++ pyStrip s.data ++ v1 := by rw [h2]
    _ = s.data := h1

theorem pyRFind_concat (c : Char) (z : List Char) :
    pyRFind c (z ++ [c]) = some z.length := by
  induction z with
  | nil => simp [pyRFind]
  | cons d ds ih => simp [pyRFind, ih]

theorem pyFind_split (c : Char) (t : List Char) (s : Nat)
    (h : pyFind c t = some s) : ∃ a b, t = a ++ c :: b ∧ a.length = s := by
  induction t generalizing s with
  | nil => simp [pyFind] at h
  | cons d t' ih =>
    by_cases hd : d = c
    · subst hd
      simp [pyFind] at h
      exact ⟨[], t', by simp, by simp [← h]⟩
    · simp [pyFind, hd] at h
      rcases h with ⟨s', hs', rfl⟩
      rcases ih s' hs' with ⟨a, b, rfl, ha⟩
      exact ⟨d :: a, b, by simp, by simp [ha]⟩

theorem pyRFind_split (c : Char) (t : List Char) (e : Nat)
    (h : pyRFind c t = some e) : ∃ a b, t = a ++ c :: b ∧ a.length = e := by
  induction t generalizing e with
  | nil => simp [pyRFind] at h
  | cons d t' ih =>
    simp only [pyRFind] at h
    rcases hr : pyRFind c t' with _ | i
    · rw [hr] at h
      by_cases hd : d = c
      · subst hd
        simp at h
        exact ⟨[], t', by simp, by simp [← h]⟩
      · simp [hd] at h
    · rw [hr] at h
      simp at h
      rcases ih i hr with ⟨a, b, rfl, ha⟩
      exact ⟨d :: a, b, by simp, by simp [ha, h]⟩

theorem pyStrip_cons_concat (a b : Char) (m : List Char)
    (ha : pyWS a = false) (hb : pyWS b = false) :
    pyStrip (a :: (m ++ [b])) = a :: (m ++ [b]) := by
  unfold pyStrip
  rw [List.dropWhile_cons_of_neg (by simp [ha])]
  rw [show (a :: (m ++ [b])).reverse = b :: (m.reverse ++ [a]) by simp]
  rw [List.dropWhile_cons_of_neg (by simp [hb])]
  simp

theorem fence_not_isPrefixOf_bracket (t : List Char) :
    fence.isPrefixOf ('[' :: t) = false := by
  simp [fence, List.isPrefixOf]

/-- Any list that starts with `[` and ends with `]` is a fixed point of the
extractor. -/
theorem extractJsonList_fixed (mid : List Char) :
    extractJsonList ('[' :: (mid ++ [']'])) = '[' :: (mid ++ [']']) := by
  unfold extractJsonList
  rw [pyStrip_cons_concat '[' ']' mid (by decide) (by decide)]
  rw [show deFence ('[' :: (mid ++ [']'])) = '[' :: (mid ++ [']']) from by
    unfold deFence
    rw [fence_not_isPrefixOf_bracket]
    simp]
  unfold bracketSlice
  rw [show pyFind '[' ('[' :: (mid ++ [']'])) = some 0 from by simp [pyFind]]
  rw [show pyRFind ']' ('[' :: (mid ++ [']'])) = some (mid.length + 1) from by
    have := pyRFind_concat ']' ('[' :: mid)
    simpa using this]
  simp only [Nat.lt_add_one_iff, Nat.zero_le, if_pos, List.drop_zero]
  rw [List.take_of_length_le (by simp)]

/-- When the bracket search succeeds, the slice taken runs from the first `[`
to the last `]`, so it starts with `[` and ends with `]`. -/
theorem bracketSlice_shape (t : List Char) (s e : Nat)
    (hs : pyFind '[' t = some s) (he : pyRFind ']' t = some e) (hlt : s < e) :
    ∃ m, bracketSlice t = '[' :: (m ++ [']']) := by
  rcases pyFind_split '[' t s hs with ⟨a, b, rfl, ha⟩
  rcases pyRFind_split ']' (a ++ '[' :: b) e he with ⟨a2, b2, hsplit, ha2⟩
  refine ⟨a2.drop (s + 1), ?_⟩
  unfold bracketSlice
  rw [hs, he]
  dsimp only
  rw [if_pos hlt]
  have hdrop : (a ++ '[' :: b).drop s = '[' :: b := by
    rw [← ha]
    exact List.drop_left a ('[' :: b)
  have hdrop1 : (a ++ '[' :: b).drop (s + 1) = b := by
    have : a ++ '[' :: b = (a ++ ['[']) ++ b := by simp
    rw [this, ← show (a ++ ['[']).length = s + 1 by simp [ha]]
    exact List.drop_left (a ++ ['[']) b
  have hdrop2 : (a2 ++ ']' :: b2).drop (s + 1) = a2.drop (s + 1) ++ ']' :: b2 := by
    rw [List.drop_append_eq_append_drop]
    have : s + 1 - a2.length = 0 := by omega
    rw [this]
    simp
  have hb : b = a2.drop (s + 1) ++ ']' :: b2 := by
    rw [← hdrop1, hsplit, hdrop2]
  have hmlen : (a2.drop (s + 1)).length = e - s - 1 := by
    rw [List.length_drop, ha2]
    omega
  rw [hdrop, hb]
  have hes : e + 1 - s = ((a2.drop (s + 1)).length + 1) + 1 := by
    rw [hmlen]
    omega
  rw [hes, List.take_succ_cons, List.take_append_eq_append_take]
  rw [List.take_of_length_le (by omega)]
  congr 1
  rw [show (a2.drop (s + 1)).length + 1 - (a2.drop (s + 1)).length = 1 from by omega]
  rfl

theorem isPrefixOf_self_append (l t : List Char) : l.isPrefixOf (l ++ t) = true := by
  induction l with
  | nil => simp [List.isPrefixOf]
  | cons c cs ih => simp [List.isPrefixOf, ih]

/-- A fenced input reduces to the bracket search applied to the body alone:
the fence lines are stripped before the first-`[`/last-`]` search runs. -/
theorem extractJsonList_fenced (hdr body : List Char) (hh : '\n' ∉ hdr) :
    extractJsonList (fence ++ hdr ++ '\n' :: (body ++ '\n' :: fence)) =
      bracketSlice body := by
  have hnf : '\n' ∉ fence := by decide
  have hstrip : pyStrip (fence ++ hdr ++ '\n' :: (body ++ '\n' :: fence))
      = fence ++ hdr ++ '\n' :: (body ++ '\n' :: fence) := by
    have hx : fence ++ hdr ++ '\n' :: (body ++ '\n' :: fence)
        = '`' :: (('`' :: '`' :: (hdr ++ '\n' :: (body ++ '\n' :: ['`', '`']))) ++ ['`']) := by
      simp [fence]
    rw [hx, pyStrip_cons_concat _ _ _ (by decide) (by decide), ← hx]
  have hpre : fence.isPrefixOf (fence ++ hdr ++ '\n' :: (body ++ '\n' :: fence)) = true := by
    rw [show fence ++ hdr ++ '\n' :: (body ++ '\n' :: fence)
        = fence ++ (hdr ++ '\n' :: (body ++ '\n' :: fence)) from by simp]
    exact isPrefixOf_self_append _ _
  have hsplit : pySplit '\n' (fence ++ hdr ++ '\n' :: (body ++ '\n' :: fence))
      = (fence ++ hdr) :: (pySplit '\n' body ++ [fence]) := by
    rw [show fence ++ hdr ++ '\n' :: (body ++ '\n' :: fence)
        = (fence ++ hdr) ++ '\n' :: (body ++ '\n' :: fence) from by simp]
    rw [pySplit_append, pySplit_append]
    rw [pySplit_eq_single '\n' (fence ++ hdr) (by
      intro h
      rcases List.mem_append.mp h with h | h
      · exact hnf h
      · exact hh h)]
    rw [pySplit_eq_single '\n' fence hnf]
    simp
  have h4 : dropFirstFence ((fence ++ hdr) :: (pySplit '\n' body ++ [fence]))
      = pySplit '\n' body ++ [fence] := by
    show (if fence.isPrefixOf (fence ++ hdr) then pySplit '\n' body ++ [fence]
          else (fence ++ hdr) :: (pySplit '\n' body ++ [fence])) = _
    rw [if_pos (isPrefixOf_self_append fence hdr)]
  have h5 : dropLastFence (pySplit '\n' body ++ [fence]) = pySplit '\n' body := by
    unfold dropLastFence
    rw [List.getLast?_concat]
    dsimp only
    rw [if_pos (by decide : pyStrip fence = fence)]
    exact List.dropLast_concat
  unfold extractJsonList
  rw [hstrip]
  unfold deFence
  rw [if_pos hpre, hsplit, h4, h5, pyJoin_pySplit]

/-- C8 counterexample: the extractor is not idempotent.  On the fenced input
`"```\n  hi\n```"` the first application returns `"  hi"` (the whitespace
inside the fence survives de-fencing), while a second application strips it
to `"hi"`. -/
theorem extractJson_not_idempotent :
    extractJson (extractJson "```\n  hi\n```") ≠ extractJson "```\n  hi\n```" := by
  decide

/-- C8 (amended): (1) whenever the bracket search succeeds on the stripped,
de-fenced text, the extractor output is a fixed point, so re-application
changes nothing; (2) on fenced input the fence lines are removed before the
bracket search, which then runs on the body alone.  Idempotence fails in
general only for inputs on which the bracket search fails (see the
counterexample). -/
theorem extractJson_idempotent_amended :
    (∀ (x : String) (s e : Nat),
        pyFind '[' (deFence (pyStrip x.data)) = some s →
        pyRFind ']' (deFence (pyStrip x.data)) = some e →
        s < e →
        extractJson (extractJson x) = extractJson x) ∧
    (∀ hdr body : List Char, '\n' ∉ hdr →
        extractJsonList (fence ++ hdr ++ '\n' :: (body ++ '\n' :: fence)) =
          bracketSlice body) := by
  constructor
  · intro x s e hs he hlt
    obtain ⟨m, hm⟩ := bracketSlice_shape _ s e hs he hlt
    have hx : (extractJson x).data = '[' :: (m ++ [']']) := hm
    show String.mk (extractJsonList (extractJson x).data) = extractJson x
    rw [hx, extractJsonList_fixed m, ← hx]
  · exact extractJsonList_fenced

/-- Witness for the amended C8 theorem at concrete inputs. -/
theorem extractJson_idempotent_amended_witness :
    (pyFind '[' (deFence (pyStrip ("a[1]b").data)) = some 1 ∧
     pyRFind ']' (deFence (pyStrip ("a[1]b").data)) = some 3 ∧
     1 < 3 ∧
     extractJson (extractJson "a[1]b") = extractJson "a[1]b") ∧
    ('\n' ∉ ("json").data ∧
     extractJsonList (fence ++ ("json").data ++ '\n' :: (("[1]").data ++ '\n' :: fence)) =
       bracketSlice ("[1]").data) := by
  refine ⟨⟨by decide, by decide, by decide, ?_⟩, by decide, ?_⟩
  · exact extractJson_idempotent_amended.1 "a[1]b" 1 3 (by decide) (by decide) (by decide)
  · exact extractJson_idempotent_amended.2 ("json").data ("[1]").data (by decide)

/-! ### Vector math of `SkillMatcher._cosine_similarity` (matcher.py 54-62) -/

/-- `np.dot` on equal-length float vectors, modelled over `ℝ`. -/
noncomputable def vdot (a b : List ℝ) : ℝ :=
  (List.zipWith (fun x y => x * y) a b).sum

/-- `np.linalg.norm`, modelled over `ℝ`. -/
noncomputable def vnorm (a : List ℝ) : ℝ := Real.sqrt (vdot a a)

open Classical in
/-- `SkillMatcher._cosine_similarity` (matcher.py 54-62): returns `0.0` when
either vector has zero norm, else the normalized dot product. -/
noncomputable def cosineSimilarity (a b : List ℝ) : ℝ :=
  if vnorm a = 0 ∨ vnorm b = 0 then 0 else vdot a b / (vnorm a * vnorm b)

theorem vdot_nil (b : List ℝ) : vdot [] b = 0 := by simp [vdot]

theorem vdot_nil_right (a : List ℝ) : vdot a [] = 0 := by
  cases a <;> simp [vdot]

theorem vdot_cons (x y : ℝ) (a b : List ℝ) :
    vdot (x :: a) (y :: b) = x * y + vdot a b := by
  simp [vdot]

theorem vdot_comm (a b : List ℝ) : vdot a b = vdot b a := by
  induction a generalizing b with
  | nil => simp [vdot_nil, vdot_nil_right]
  | cons x a' ih =>
    cases b with
    | nil => simp [vdot_nil, vdot_nil_right]
    | cons y b' => simp [vdot_cons, ih b', mul_comm]

theorem vdot_self_nonneg (a : List ℝ) : 0 ≤ vdot a a := by
  induction a with
  | nil => simp [vdot_nil]
  | cons x a' ih =>
    rw [vdot_cons]
    nlinarith [sq_nonneg x]

theorem vdot_self_pos (v : List ℝ) (h : ∃ x ∈ v, x ≠ 0) : 0 < vdot v v := by
  induction v with
  | nil => simp at h
  | cons y v' ih =>
    rw [vdot_cons]
    rcases h with ⟨x, hx, hxne⟩
    rcases List.mem_cons.mp hx with rfl | hx'
    · nlinarith [vdot_self_nonneg v', sq_nonneg x, mul_self_pos.mpr hxne]
    · have := ih ⟨x, hx', hxne⟩
      nlinarith [sq_nonneg y]

theorem vdot_self_zero (a : List ℝ) (h : ∀ x ∈ a, x = 0) : vdot a a = 0 := by
  induction a with
  | nil => simp [vdot_nil]
  | cons y a' ih =>
    rw [vdot_cons, h y (by simp), ih fun x hx => h x (by simp [hx])]
    ring

/-- Cauchy-Schwarz for list dot products. -/
theorem vdot_sq_le (a b : List ℝ) : (vdot a b) ^ 2 ≤ vdot a a * vdot b b := by
  induction a generalizing b with
  | nil => simp [vdot_nil]
  | cons x a' ih =>
    cases b with
    | nil => simp [vdot_nil_right]
    | cons y b' =>
      have hA := vdot_self_nonneg a'
      have hB := vdot_self_nonneg b'
      have hS := ih b'
      simp only [vdot_cons]
      rcases eq_or_lt_of_le hB with hB0 | hBpos
      · have hS0 : vdot a' b' = 0 := by nlinarith [sq_nonneg (vdot a' b')]
        rw [hS0, ← hB0]
        nlinarith [mul_nonneg hA (sq_nonneg y)]
      · have key : vdot b' b' *
            ((x * x + vdot a' a') * (y * y + vdot b' b') - (x * y + vdot a' b') ^ 2)
            = (x * vdot b' b' - y * vdot a' b') ^ 2
              + (y * y + vdot b' b') * (vdot a' a' * vdot b' b' - (vdot a' b') ^ 2) := by
          ring
        have hRHS : 0 ≤ (x * vdot b' b' - y * vdot a' b') ^ 2
            + (y * y + vdot b' b') * (vdot a' a' * vdot b' b' - (vdot a' b') ^ 2) := by
          have h1 : 0 ≤ y * y + vdot b' b' := by nlinarith [sq_nonneg y]
          have h2 : 0 ≤ vdot a' a' * vdot b' b' - (vdot a' b') ^ 2 := by linarith
          nlinarith [sq_nonneg (x * vdot b' b' - y * vdot a' b')]
        nlinarith [key, hRHS, hBpos]

theorem vnorm_nonneg (a : List ℝ) : 0 ≤ vnorm a := Real.sqrt_nonneg _

theorem vdot_map_neg_right (a b : List ℝ) :
    vdot a (b.map fun x => -x) = -(vdot a b) := by
  induction a generalizing b with
  | nil => simp [vdot_nil]
  | cons x a' ih =>
    cases b with
    | nil => simp [vdot_nil_right]
    | cons y b' =>
      simp only [List.map_cons, vdot_cons, ih b']
      ring

theorem vdot_map_neg_left (a b : List ℝ) :
    vdot (a.map fun x => -x) b = -(vdot a b) := by
  rw [vdot_comm, vdot_map_neg_right, vdot_comm]

theorem cosineSimilarity_le_one (a b : List ℝ) : cosineSimilarity a b ≤ 1 := by
  unfold cosineSimilarity
  split
  · norm_num
  · next h =>
    push_neg at h
    have ha : 0 < vnorm a := lt_of_le_of_ne (vnorm_nonneg a) (Ne.symm h.1)
    have hb : 0 < vnorm b := lt_of_le_of_ne (vnorm_nonneg b) (Ne.symm h.2)
    rw [div_le_one (by positivity)]
    calc vdot a b ≤ |vdot a b| := le_abs_self _
      _ = Real.sqrt ((vdot a b) ^ 2) := (Real.sqrt_sq_eq_abs _).symm
      _ ≤ Real.sqrt (vdot a a * vdot b b) := Real.sqrt_le_sqrt (vdot_sq_le a b)
      _ = vnorm a * vnorm b := by
          rw [vnorm, vnorm, ← Real.sqrt_mul (vdot_self_nonneg a)]

/-- C7: cosine similarity as computed by the matcher is symmetric, equals 1
on a nonzero vector against itself, equals -1 against its negation, and is 0
(with no division performed) whenever either argument is all-zero. -/
theorem cosine_similarity_spec :
    (∀ a b : List ℝ, cosineSimilarity a b = cosineSimilarity b a) ∧
    (∀ v : List ℝ, (∃ x ∈ v, x ≠ 0) → cosineSimilarity v v = 1) ∧
    (∀ v : List ℝ, (∃ x ∈ v, x ≠ 0) →
        cosineSimilarity v (v.map fun x => -x) = -1) ∧
    (∀ a b : List ℝ, (∀ x ∈ a, x = 0) →
        cosineSimilarity a b = 0 ∧ cosineSimilarity b a = 0) := by
  refine ⟨?_, ?_, ?_, ?_⟩
  · intro a b
    unfold cosineSimilarity
    by_cases h : vnorm a = 0 ∨ vnorm b = 0
    · rw [if_pos h, if_pos (Or.symm h)]
    · rw [if_neg h, if_neg fun hc => h (Or.symm hc)]
      rw [vdot_comm, mul_comm]
  · intro v hv
    have hpos : 0 < vdot v v := vdot_self_pos v hv
    have hn : vnorm v ≠ 0 := by
      rw [vnorm]
      positivity
    unfold cosineSimilarity
    rw [if_neg (by tauto)]
    rw [vnorm, Real.mul_self_sqrt (le_of_lt hpos)]
    exact div_self (ne_of_gt hpos)
  · intro v hv
    have hneg : vdot v (v.map fun x => -x) = -(vdot v v) := vdot_map_neg_right v v
    have hsame : vdot (v.map fun x => -x) (v.map fun x => -x) = vdot v v := by
      rw [vdot_map_neg_left, vdot_map_neg_right, neg_neg]
    have hpos : 0 < vdot v v := vdot_self_pos v hv
    have hn : vnorm v ≠ 0 := by
      rw [vnorm]
      positivity
    have hn2 : vnorm (v.map fun x => -x) = vnorm v := by
      rw [vnorm, vnorm, hsame]
    unfold cosineSimilarity
    rw [if_neg (by rw [hn2]; tauto)]
    rw [hneg, hn2, vnorm, Real.mul_self_sqrt (le_of_lt hpos)]
    rw [neg_div, div_self (ne_of_gt hpos)]
  · intro a b ha
    have h0 : vnorm a = 0 := by
      rw [vnorm, vdot_self_zero a ha, Real.sqrt_zero]
    constructor
    · unfold cosineSimilarity
      rw [if_pos (Or.inl h0)]
    · unfold cosineSimilarity
      rw [if_pos (Or.inr h0)]

/-- Witness for C7 at concrete vectors. -/
theorem cosine_similarity_spec_witness :
    ((∃ x ∈ [(1 : ℝ)], x ≠ 0) ∧ cosineSimilarity [(1 : ℝ)] [(1 : ℝ)] = 1) ∧
    cosineSimilarity [(1 : ℝ)] ([(1 : ℝ)].map fun x => -x) = -1 ∧
    ((∀ x ∈ [(0 : ℝ)], x = 0) ∧ cosineSimilarity [(0 : ℝ)] [(5 : ℝ)] = 0) := by
  have hex : ∃ x ∈ [(1 : ℝ)], x ≠ 0 := ⟨1, List.mem_singleton.mpr rfl, one_ne_zero⟩
  have hz : ∀ x ∈ [(0 : ℝ)], x = 0 := by
    intro x hx
    simpa using hx
  exact ⟨⟨hex, cosine_similarity_spec.2.1 [(1 : ℝ)] hex⟩,
    cosine_similarity_spec.2.2.1 [(1 : ℝ)] hex,
    hz, (cosine_similarity_spec.2.2.2 [(0 : ℝ)] [(5 : ℝ)] hz).1⟩

/-! ### Stable descending sort, the model of Python `list.sort(key=k, reverse=True)`
(CPython's sort is stable; any two stable sorts for the same key agree, so a
stable insertion sort is an extensionally faithful model). -/

/-- Insert `m` before the first element whose key is `≤ key m`; elements kept
in front all have strictly larger keys, so equal-key elements that were
already present stay behind `m` only if they came later - here `m` is always
the earlier input element (see `stableSortDesc`). -/
def insertDescBy {α β : Type} [LinearOrder β] (key : α → β) (m : α) :
    List α → List α
  | [] => [m]
  | x :: xs => if key x ≤ key m then m :: x :: xs else x :: insertDescBy key m xs

/-- Stable descending insertion sort by key. -/
def stableSortDesc {α β : Type} [LinearOrder β] (key : α → β) : List α → List α
  | [] => []
  | x :: xs => insertDescBy key x (stableSortDesc key xs)

theorem insertDescBy_eq {α β : Type} [LinearOrder β] (key : α → β) (m : α)
    (l : List α) :
    insertDescBy key m l
      = l.takeWhile (fun x => decide (key m < key x)) ++
        m :: l.dropWhile (fun x => decide (key m < key x)) := by
  induction l with
  | nil => simp [insertDescBy]
  | cons x xs ih =>
    by_cases h : key x ≤ key m
    · simp [insertDescBy, h, List.takeWhile, List.dropWhile, not_lt.mpr h]
    · have hlt : key m < key x := not_le.mp h
      simp [insertDescBy, h, List.takeWhile, List.dropWhile, hlt, ih]

theorem insertDescBy_perm {α β : Type} [LinearOrder β] (key : α → β) (m : α)
    (l : List α) : List.Perm (insertDescBy key m l) (m :: l) := by
  induction l with
  | nil => exact List.Perm.refl _
  | cons x xs ih =>
    by_cases h : key x ≤ key m
    · rw [insertDescBy, if_pos h]
    · rw [insertDescBy, if_neg h]
      exact (ih.cons x).trans (List.Perm.swap m x xs)

theorem stableSortDesc_perm {α β : Type} [LinearOrder β] (key : α → β)
    (l : List α) : List.Perm (stableSortDesc key l) l := by
  induction l with
  | nil => exact List.Perm.refl _
  | cons x xs ih =>
    exact (insertDescBy_perm key x (stableSortDesc key xs)).trans (ih.cons x)

theorem insertDescBy_pairwise {α β : Type} [LinearOrder β] (key : α → β) (m : α)
    (l : List α) (h : l.Pairwise fun a b => key b ≤ key a) :
    (insertDescBy key m l).Pairwise fun a b => key b ≤ key a := by
  induction l with
  | nil => simp [insertDescBy]
  | cons x xs ih =>
    rcases List.pairwise_cons.mp h with ⟨hx, hxs⟩
    by_cases hle : key x ≤ key m
    · rw [insertDescBy, if_pos hle]
      refine List.pairwise_cons.mpr ⟨?_, h⟩
      intro b hb
      rcases List.mem_cons.mp hb with rfl | hb'
      · exact hle
      · exact le_trans (hx b hb') hle
    · rw [insertDescBy, if_neg hle]
      refine List.pairwise_cons.mpr ⟨?_, ih hxs⟩
      intro b hb
      have hmem : b = m ∨ b ∈ xs := by
        have := (insertDescBy_perm key m xs).mem_iff.mp hb
        simpa using this
      rcases hmem with rfl | hb'
      · exact le_of_lt (not_le.mp hle)
      · exact hx b hb'

theorem stableSortDesc_pairwise {α β : Type} [LinearOrder β] (key : α → β)
    (l : List α) :
    (stableSortDesc key l).Pairwise fun a b => key b ≤ key a := by
  induction l with
  | nil => simp [stableSortDesc]
  | cons x xs ih => exact insertDescBy_pairwise key x (stableSortDesc key xs) ih

theorem insertDescBy_filter_eq {α β : Type} [LinearOrder β] (key : α → β)
    (m : α) (l : List α) (q : β) :
    (insertDescBy key m l).filter (fun x => decide (key x = q))
      = if key m = q then m :: l.filter (fun x => decide (key x = q))
        else l.filter (fun x => decide (key x = q)) := by
  have hsplit : l.takeWhile (fun x => decide (key m < key x)) ++
      l.dropWhile (fun x => decide (key m < key x)) = l :=
    List.takeWhile_append_dropWhile _ _
  rw [insertDescBy_eq, List.filter_append]
  by_cases hm : key m = q
  · have hnone : (l.takeWhile fun x => decide (key m < key x)).filter
        (fun x => decide (key x = q)) = [] := by
      rw [List.filter_eq_nil_iff]
      intro x hx
      have := List.mem_takeWhile_imp hx
      simp only [decide_eq_true_eq] at this ⊢
      intro hxq
      rw [← hm] at hxq
      exact absurd hxq (ne_of_gt this)
    rw [hnone, List.nil_append, if_pos hm]
    rw [List.filter_cons_of_pos (by simp [hm])]
    conv_rhs => rw [← hsplit]
    rw [List.filter_append, hnone, List.nil_append]
  · rw [if_neg hm]
    rw [List.filter_cons_of_neg (by simp [hm])]
    conv_rhs => rw [← hsplit]
    rw [List.filter_append]

theorem stableSortDesc_filter_eq {α β : Type} [LinearOrder β] (key : α → β)
    (l : List α) (q : β) :
    (stableSortDesc key l).filter (fun x => decide (key x = q))
      = l.filter (fun x => decide (key x = q)) := by
  induction l with
  | nil => simp [stableSortDesc]
  | cons x xs ih =>
    rw [stableSortDesc, insertDescBy_filter_eq, ih]
    by_cases hx : key x = q
    · simp [List.filter_cons, hx]
    · simp [List.filter_cons, hx]

theorem filter_isPrefixOf_of_isPrefixOf {α : Type} (p : α → Bool) (l₁ l₂ : List α)
    (h : l₁ <+: l₂) : l₁.filter p <+: l₂.filter p := by
  rcases h with ⟨t, rfl⟩
  exact ⟨t.filter p, by rw [List.filter_append]⟩

theorem take_isPrefixOf {α : Type} (n : Nat) (l : List α) : l.take n <+: l :=
  ⟨l.drop n, List.take_append_drop n l⟩

/-! ### Skill data model (loader.py 9-57) -/

/-- `SkillTrigger` dataclass (loader.py 9-14).  YAML numbers are modelled as
`ℚ`; the default threshold is `0.6`. -/
structure SkillTrigger where
  domains : List String := []
  keywords : List String := []
  intent_patterns : List String := []
  threshold : ℚ := 0.6
deriving DecidableEq

/-- `SkillMetadata` dataclass (loader.py 17-23). -/
structure SkillMetadata where
  name : String
  display_name : String
  version : String := "1.0"
  description : String := ""
  trigger : SkillTrigger := {}
deriving DecidableEq

/-- `ThinkingStep` dataclass (loader.py 26-29). -/
structure ThinkingStep where
  name : String
  prompt : String
deriving DecidableEq

/-- `ThinkingFramework` dataclass (loader.py 32-35). -/
structure ThinkingFramework where
  description : String := ""
  steps : List ThinkingStep := []
deriving DecidableEq

/-- `SkillTool` dataclass (loader.py 38-42). -/
structure SkillTool where
  name : String
  description : String := ""
  output_format : String := ""
deriving DecidableEq

/-- `OutputRequirements` dataclass (loader.py 45-48). -/
structure OutputRequirements where
  sections : List String := []
  style : String := ""
deriving DecidableEq

/-- `Skill` dataclass (loader.py 51-57). -/
structure Skill where
  metadata : SkillMetadata
  thinking_framework : ThinkingFramework := {}
  tools : List SkillTool := []
  output_requirements : OutputRequirements := {}
  file_path : String := ""
deriving DecidableEq

/-- `SkillMatch` dataclass (matcher.py 16-21). -/
structure SkillMatch where
  skill : Skill
  score : ℝ
  matched_domains : List String := []
  matched_keywords : List String := []

/-- External collaborators of `SkillMatcher`: the embedding service (one
vector per input text), the regex engine (`reValid p` models whether
`re.search(p, ·)` compiles without `re.error`; `reSearch p t` whether it
finds a match in `t`), and the configured `skill_match_top_k`. -/
structure MatcherCtx where
  embed : List String → List (List ℝ)
  reValid : String → Bool
  reSearch : String → String → Bool
  top_k : Nat

/-- Python `str.lower()` (character-wise, ASCII fidelity). -/
def pyLower (s : String) : String := String.mk (s.data.map Char.toLower)

/-- Python substring containment `sub in s`. -/
def pyContains (sub s : String) : Bool := decide (sub.data <:+: s.data)

open Classical in
/-- One iteration of the domain loop in `_compute_score` (matcher.py 76-81):
raise the running best similarity, and record the domain as matched when its
similarity exceeds the 0.4 evidence threshold. -/
noncomputable def domainStep (topic_embedding : List ℝ) (acc : ℝ × List String)
    (p : String × List ℝ) : ℝ × List String :=
  let sim := cosineSimilarity topic_embedding p.2
  (if acc.1 < sim then sim else acc.1,
   if (0.4 : ℝ) < sim then acc.2 ++ [p.1] else acc.2)

open Classical in
/-- The domain block of `_compute_score` (matcher.py 71-81): starting from
similarity 0 and no matched domains, fold over the domains zipped with their
embeddings (the guard mirrors `if trigger.domains:`). -/
noncomputable def domainFold (ctx : MatcherCtx) (topic_embedding : List ℝ)
    (trigger : SkillTrigger) : ℝ × List String :=
  if trigger.domains ≠ [] then
    (trigger.domains.zip (ctx.embed trigger.domains)).foldl
      (domainStep topic_embedding) (0, [])
  else (0, [])

open Classical in
/-- The keyword block of `_compute_score` (matcher.py 83-91): keywords whose
lowercase form occurs in the lowercase topic. -/
def matchedKeywords (topic : String) (trigger : SkillTrigger) : List String :=
  if trigger.keywords ≠ [] then
    trigger.keywords.filter fun kw => pyContains (pyLower kw) (pyLower topic)
  else []

open Classical in
/-- `keyword_score` of `_compute_score` (matcher.py 84-91). -/
noncomputable def keywordScore (topic : String) (trigger : SkillTrigger) : ℝ :=
  if trigger.keywords ≠ [] then
    ((matchedKeywords topic trigger).length : ℝ) / (trigger.keywords.length : ℝ)
  else 0

open Classical in
/-- `intent_score` of `_compute_score` (matcher.py 93-103): count patterns
that compile and match (`re.error` is swallowed, the pattern counted as
non-matching), divide by all patterns. -/
noncomputable def intentScore (ctx : MatcherCtx) (topic : String)
    (trigger : SkillTrigger) : ℝ :=
  if trigger.intent_patterns ≠ [] then
    ((trigger.intent_patterns.countP fun p => ctx.reValid p && ctx.reSearch p topic : Nat) : ℝ)
      / (trigger.intent_patterns.length : ℝ)
  else 0

/-- `SkillMatcher._compute_score` (matcher.py 64-106): the 0.5/0.3/0.2 blend.
Returns `(score, matched_domains, matched_keywords)`. -/
noncomputable def computeScore (ctx : MatcherCtx) (topic : String)
    (topic_embedding : List ℝ) (skill : Skill) : ℝ × List String × List String :=
  let trigger := skill.metadata.trigger
  (0.5 * (domainFold ctx topic_embedding trigger).1
     + 0.3 * keywordScore topic trigger
     + 0.2 * intentScore ctx topic trigger,
   (domainFold ctx topic_embedding trigger).2,
   matchedKeywords topic trigger)

open Classical in
/-- The candidate list built by the loop in `SkillMatcher.match`
(matcher.py 119-131): one `SkillMatch` per skill whose score reaches that
skill's own threshold, in input order. -/
noncomputable def candidateMatches (ctx : MatcherCtx) (topic : String)
    (topic_embedding : List ℝ) (skills : List Skill) : List SkillMatch :=
  skills.filterMap fun skill =>
    let r := computeScore ctx topic topic_embedding skill
    if ((skill.metadata.trigger.threshold : ℝ)) ≤ r.1 then
      some ⟨skill, r.1, r.2.1, r.2.2⟩
    else none

/-- `SkillMatcher.match` (matcher.py 108-134).  `none` models the
`IndexError` raised when the embedding service returns no vector for the
topic; otherwise the candidates are sorted descending by score (stable, as
CPython's `list.sort`) and truncated to `top_k`. -/
noncomputable def matchSkills (ctx : MatcherCtx) (topic : String)
    (skills : List Skill) : Option (List SkillMatch) :=
  if skills.isEmpty then some []
  else
    match (ctx.embed [topic]).head? with
    | none => none
    | some topic_embedding =>
      some ((stableSortDesc SkillMatch.score
        (candidateMatches ctx topic topic_embedding skills)).take ctx.top_k)

/-! ### Spec-side score formula (spec section 4.2) -/

/-- Spec wording: max over domains of cosine similarity, or 0 if none. -/
noncomputable def domainSimSpec (ctx : MatcherCtx) (topic_embedding : List ℝ)
    (trigger : SkillTrigger) : ℝ :=
  ((trigger.domains.zip (ctx.embed trigger.domains)).map
    fun p => cosineSimilarity topic_embedding p.2).foldr max 0

/-- Spec wording: keywords found as case-insensitive substrings of the topic
over total keywords, or 0 if none. -/
noncomputable def keywordRatioSpec (topic : String) (trigger : SkillTrigger) : ℝ :=
  if trigger.keywords = [] then 0
  else ((trigger.keywords.countP fun kw => pyContains (pyLower kw) (pyLower topic) : Nat) : ℝ)
    / (trigger.keywords.length : ℝ)

/-- Spec wording: intent regular expressions that match over total patterns
(a malformed pattern counts in the denominator but never matches), or 0 if
none. -/
noncomputable def intentRatioSpec (ctx : MatcherCtx) (topic : String)
    (trigger : SkillTrigger) : ℝ :=
  if trigger.intent_patterns = [] then 0
  else ((trigger.intent_patterns.countP fun p => ctx.reValid p && ctx.reSearch p topic : Nat) : ℝ)
    / (trigger.intent_patterns.length : ℝ)

theorem if_lt_eq_max (d s : ℝ) : (if d < s then s else d) = max d s := by
  by_cases h : d < s
  · rw [if_pos h, max_eq_right (le_of_lt h)]
  · rw [if_neg h, max_eq_left (not_lt.mp h)]

theorem foldr_max_swap (l : List ℝ) (c x : ℝ) :
    l.foldr max (max c x) = max x (l.foldr max c) := by
  induction l with
  | nil => exact max_comm c x
  | cons y l ih =>
    simp only [List.foldr_cons, ih]
    exact max_left_comm y x _

theorem domainStep_fst (emb : List ℝ) (acc : ℝ × List String)
    (p : String × List ℝ) :
    (domainStep emb acc p).1 = max acc.1 (cosineSimilarity emb p.2) := by
  unfold domainStep
  exact if_lt_eq_max _ _

theorem foldl_domainStep_fst (emb : List ℝ) (pairs : List (String × List ℝ))
    (acc : ℝ × List String) :
    (pairs.foldl (domainStep emb) acc).1
      = (pairs.map fun p => cosineSimilarity emb p.2).foldr max acc.1 := by
  induction pairs generalizing acc with
  | nil => rfl
  | cons p ps ih =>
    simp only [List.foldl_cons, List.map_cons, List.foldr_cons]
    rw [ih, ← foldr_max_swap, domainStep_fst]

theorem domainFold_fst (ctx : MatcherCtx) (emb : List ℝ)
    (trigger : SkillTrigger) :
    (domainFold ctx emb trigger).1 = domainSimSpec ctx emb trigger := by
  unfold domainFold domainSimSpec
  by_cases hd : trigger.domains = []
  · rw [if_neg (by simp [hd]), hd]
    simp
  · rw [if_pos hd, foldl_domainStep_fst]

theorem keywordScore_eq (topic : String) (trigger : SkillTrigger) :
    keywordScore topic trigger = keywordRatioSpec topic trigger := by
  unfold keywordScore keywordRatioSpec matchedKeywords
  by_cases hk : trigger.keywords = []
  · rw [if_neg (by simp [hk]), if_pos hk]
  · rw [if_pos hk, if_neg hk, if_pos hk, List.countP_eq_length_filter]

theorem intentScore_eq (ctx : MatcherCtx) (topic : String)
    (trigger : SkillTrigger) :
    intentScore ctx topic trigger = intentRatioSpec ctx topic trigger := by
  unfold intentScore intentRatioSpec
  by_cases hp : trigger.intent_patterns = []
  · rw [if_neg (by simp [hp]), if_pos hp]
  · rw [if_pos hp, if_neg hp]

theorem computeScore_fst_eq (ctx : MatcherCtx) (topic : String)
    (emb : List ℝ) (skill : Skill) :
    (computeScore ctx topic emb skill).1 =
      0.5 * domainSimSpec ctx emb skill.metadata.trigger
      + 0.3 * keywordRatioSpec topic skill.metadata.trigger
      + 0.2 * intentRatioSpec ctx topic skill.metadata.trigger := by
  show 0.5 * (domainFold ctx emb skill.metadata.trigger).1
      + 0.3 * keywordScore topic skill.metadata.trigger
      + 0.2 * intentScore ctx topic skill.metadata.trigger = _
  rw [domainFold_fst, keywordScore_eq, intentScore_eq]

/-- C4: the computed match score is exactly
`0.5 * domain_sim + 0.3 * keyword_ratio + 0.2 * intent_ratio`, where a
signal with an empty trigger list contributes exactly 0, the keyword ratio
counts case-insensitive substring hits over all keywords, and the intent
ratio counts matching valid patterns over all patterns (malformed patterns
count in the denominator only). -/
theorem compute_score_formula (ctx : MatcherCtx) (topic : String)
    (emb : List ℝ) (skill : Skill) :
    (computeScore ctx topic emb skill).1 =
      0.5 * domainSimSpec ctx emb skill.metadata.trigger
      + 0.3 * keywordRatioSpec topic skill.metadata.trigger
      + 0.2 * intentRatioSpec ctx topic skill.metadata.trigger :=
  computeScore_fst_eq ctx topic emb skill

theorem foldr_max_nonneg (l : List ℝ) : 0 ≤ l.foldr max 0 := by
  induction l with
  | nil => exact le_refl 0
  | cons y l ih => exact le_max_of_le_right ih

theorem foldr_max_le_one (l : List ℝ) (h : ∀ x ∈ l, x ≤ 1) :
    l.foldr max 0 ≤ 1 := by
  induction l with
  | nil => norm_num
  | cons y l ih =>
    simp only [List.foldr_cons]
    exact max_le (h y (by simp)) (ih fun x hx => h x (by simp [hx]))

theorem domainSimSpec_nonneg (ctx : MatcherCtx) (emb : List ℝ)
    (trigger : SkillTrigger) : 0 ≤ domainSimSpec ctx emb trigger :=
  foldr_max_nonneg _

theorem domainSimSpec_le_one (ctx : MatcherCtx) (emb : List ℝ)
    (trigger : SkillTrigger) : domainSimSpec ctx emb trigger ≤ 1 := by
  apply foldr_max_le_one
  intro x hx
  rcases List.mem_map.mp hx with ⟨p, _, rfl⟩
  exact cosineSimilarity_le_one emb p.2

theorem keywordRatioSpec_bounds (topic : String) (trigger : SkillTrigger) :
    0 ≤ keywordRatioSpec topic trigger ∧ keywordRatioSpec topic trigger ≤ 1 := by
  unfold keywordRatioSpec
  by_cases hk : trigger.keywords = []
  · rw [if_pos hk]
    norm_num
  · rw [if_neg hk]
    have hlen : (0 : ℝ) < (trigger.keywords.length : ℝ) := by
      have := List.length_pos.mpr hk
      exact_mod_cast this
    constructor
    · positivity
    · rw [div_le_one hlen]
      exact_mod_cast List.countP_le_length _

theorem intentRatioSpec_bounds (ctx : MatcherCtx) (topic : String)
    (trigger : SkillTrigger) :
    0 ≤ intentRatioSpec ctx topic trigger ∧ intentRatioSpec ctx topic trigger ≤ 1 := by
  unfold intentRatioSpec
  by_cases hp : trigger.intent_patterns = []
  · rw [if_pos hp]
    norm_num
  · rw [if_neg hp]
    have hlen : (0 : ℝ) < (trigger.intent_patterns.length : ℝ) := by
      have := List.length_pos.mpr hp
      exact_mod_cast this
    constructor
    · positivity
    · rw [div_le_one hlen]
      exact_mod_cast List.countP_le_length _

theorem computeScore_fst_bounds (ctx : MatcherCtx) (topic : String)
    (emb : List ℝ) (skill : Skill) :
    0 ≤ (computeScore ctx topic emb skill).1 ∧
      (computeScore ctx topic emb skill).1 ≤ 1 := by
  rw [computeScore_fst_eq]
  have hd0 := domainSimSpec_nonneg ctx emb skill.metadata.trigger
  have hd1 := domainSimSpec_le_one ctx emb skill.metadata.trigger
  have hk := keywordRatioSpec_bounds topic skill.metadata.trigger
  have hi := intentRatioSpec_bounds ctx topic skill.metadata.trigger
  constructor <;> nlinarith [hk.1, hk.2, hi.1, hi.2]

theorem candidateMatches_spec (ctx : MatcherCtx) (topic : String)
    (emb : List ℝ) (skills : List Skill) (m : SkillMatch)
    (hm : m ∈ candidateMatches ctx topic emb skills) :
    ∃ skill ∈ skills, m.skill = skill ∧
      ((skill.metadata.trigger.threshold : ℝ)) ≤ m.score ∧
      m.score = (computeScore ctx topic emb skill).1 := by
  rcases List.mem_filterMap.mp hm with ⟨skill, hsk, hf⟩
  dsimp only at hf
  by_cases hc : ((skill.metadata.trigger.threshold : ℝ)) ≤ (computeScore ctx topic emb skill).1
  · rw [if_pos hc] at hf
    cases hf
    exact ⟨skill, hsk, rfl, hc, rfl⟩
  · rw [if_neg hc] at hf
    exact absurd hf (by simp)

theorem matchSkills_mem (ctx : MatcherCtx) (topic : String)
    (skills : List Skill) (res : List SkillMatch)
    (h : matchSkills ctx topic skills = some res) (m : SkillMatch)
    (hm : m ∈ res) :
    ∃ emb, (ctx.embed [topic]).head? = some emb ∧
      m ∈ candidateMatches ctx topic emb skills := by
  unfold matchSkills at h
  by_cases hsk : skills.isEmpty
  · rw [if_pos hsk] at h
    cases h
    exact absurd hm (by simp)
  · rw [if_neg hsk] at h
    cases hhead : (ctx.embed [topic]).head? with
    | none =>
      rw [hhead] at h
      exact absurd h (by simp)
    | some emb =>
      rw [hhead] at h
      refine ⟨emb, rfl, ?_⟩
      cases h
      have h1 := List.mem_of_mem_take hm
      exact (stableSortDesc_perm SkillMatch.score _).mem_iff.mp h1

/-- C9: every score the matcher produces lies in `[0, 1]`: the domain
similarity never drops below 0 even when every cosine similarity is
negative, the two ratios lie in `[0, 1]`, and the weights 0.5 + 0.3 + 0.2
sum to 1, so both `_compute_score` and every `SkillMatch` returned by
`match` stay inside `[0, 1]`. -/
theorem match_score_in_unit_interval :
    (∀ (ctx : MatcherCtx) (topic : String) (emb : List ℝ) (skill : Skill),
        0 ≤ domainSimSpec ctx emb skill.metadata.trigger ∧
        0 ≤ (computeScore ctx topic emb skill).1 ∧
        (computeScore ctx topic emb skill).1 ≤ 1) ∧
    (∀ (ctx : MatcherCtx) (topic : String) (skills : List Skill)
        (res : List SkillMatch) (m : SkillMatch),
        matchSkills ctx topic skills = some res → m ∈ res →
        0 ≤ m.score ∧ m.score ≤ 1) := by
  constructor
  · intro ctx topic emb skill
    exact ⟨domainSimSpec_nonneg ctx emb skill.metadata.trigger,
      (computeScore_fst_bounds ctx topic emb skill).1,
      (computeScore_fst_bounds ctx topic emb skill).2⟩
  · intro ctx topic skills res m h hm
    rcases matchSkills_mem ctx topic skills res h m hm with ⟨emb, _, hcand⟩
    rcases candidateMatches_spec ctx topic emb skills m hcand with
      ⟨skill, _, _, _, hscore⟩
    rw [hscore]
    exact computeScore_fst_bounds ctx topic emb skill

/-- C1: `match` returns at most `top_k` results, each with score at least its
own skill's trigger threshold (not a global one), sorted descending by score,
and - since the sort is stable - equal-score matches keep the relative order
their skills had in the candidate list built in input order. -/
theorem match_results_spec (ctx : MatcherCtx) (topic : String)
    (skills : List Skill) (res : List SkillMatch)
    (h : matchSkills ctx topic skills = some res) :
    res.length ≤ ctx.top_k ∧
    (∀ m ∈ res, ((m.skill.metadata.trigger.threshold : ℝ)) ≤ m.score) ∧
    res.Pairwise (fun a b => b.score ≤ a.score) ∧
    (∀ emb, (ctx.embed [topic]).head? = some emb →
      ∀ q : ℝ, res.filter (fun m => decide (m.score = q)) <+:
        (candidateMatches ctx topic emb skills).filter
          fun m => decide (m.score = q)) := by
  have hthr : ∀ m ∈ res, ((m.skill.metadata.trigger.threshold : ℝ)) ≤ m.score := by
    intro m hm
    rcases matchSkills_mem ctx topic skills res h m hm with ⟨emb, _, hcand⟩
    rcases candidateMatches_spec ctx topic emb skills m hcand with
      ⟨skill, _, hms, hth, _⟩
    rw [hms]
    exact hth
  unfold matchSkills at h
  by_cases hsk : skills.isEmpty
  · rw [if_pos hsk] at h
    cases h
    refine ⟨by simp, hthr, List.Pairwise.nil, ?_⟩
    intro emb _ q
    simp
  · rw [if_neg hsk] at h
    cases hhead : (ctx.embed [topic]).head? with
    | none =>
      rw [hhead] at h
      exact absurd h (by simp)
    | some emb0 =>
      rw [hhead] at h
      cases h
      refine ⟨List.length_take_le _ _, hthr, ?_, ?_⟩
      · exact (stableSortDesc_pairwise SkillMatch.score _).sublist
          (List.take_sublist _ _)
      · intro emb hemb q
        cases hemb
        have h1 : ((stableSortDesc SkillMatch.score
            (candidateMatches ctx topic emb0 skills)).take ctx.top_k).filter
              (fun m => decide (m.score = q)) <+:
            (stableSortDesc SkillMatch.score
              (candidateMatches ctx topic emb0 skills)).filter
              fun m => decide (m.score = q) :=
          filter_isPrefixOf_of_isPrefixOf _ _ _ (take_isPrefixOf _ _)
        have h2 := stableSortDesc_filter_eq SkillMatch.score
          (candidateMatches ctx topic emb0 skills) q
        rw [h2] at h1
        exact h1

/-! ### Concrete matcher instance for the witnesses -/

/-- Embedding service returning an empty vector for every text, failing
regex engine, `top_k = 1`. -/
def ctxW : MatcherCtx :=
  ⟨fun ts => ts.map fun _ => [], fun _ => false, fun _ _ => false, 1⟩

/-- A skill with an empty trigger and threshold 0. -/
def skillW : Skill :=
  { metadata := { name := "s", display_name := "S", trigger := { threshold := 0 } } }

/-- The match record produced for `skillW`. -/
noncomputable def matchW : SkillMatch :=
  ⟨skillW, (computeScore ctxW "t" [] skillW).1,
   (computeScore ctxW "t" [] skillW).2.1, (computeScore ctxW "t" [] skillW).2.2⟩

theorem computeScore_ctxW_fst :
    (computeScore ctxW "t" [] skillW).1 = 0.5 * 0 + 0.3 * 0 + 0.2 * 0 := rfl

theorem candidateMatches_ctxW_eval :
    candidateMatches ctxW "t" [] [skillW] = [matchW] := by
  have hth : ((skillW.metadata.trigger.threshold : ℝ)) ≤
      (computeScore ctxW "t" [] skillW).1 := by
    rw [computeScore_ctxW_fst]
    norm_num [skillW]
  unfold candidateMatches
  simp only [List.filterMap_cons, List.filterMap_nil]
  rw [if_pos hth]
  rfl

theorem matchSkills_ctxW_eval :
    matchSkills ctxW "t" [skillW] = some [matchW] := by
  unfold matchSkills
  rw [if_neg (by simp : ¬([skillW].isEmpty = true))]
  have hhead : (ctxW.embed ["t"]).head? = some [] := rfl
  rw [hhead]
  show some (List.take ctxW.top_k (stableSortDesc SkillMatch.score
    (candidateMatches ctxW "t" [] [skillW]))) = some [matchW]
  rw [candidateMatches_ctxW_eval]
  rfl

/-- Witness for C1 at a concrete matcher instance. -/
theorem match_results_spec_witness :
    matchSkills ctxW "t" [skillW] = some [matchW] ∧
    ([matchW].length ≤ ctxW.top_k ∧
     (∀ m ∈ [matchW], ((m.skill.metadata.trigger.threshold : ℝ)) ≤ m.score) ∧
     ([matchW].Pairwise fun a b => b.score ≤ a.score) ∧
     (∀ emb, (ctxW.embed ["t"]).head? = some emb →
       ∀ q : ℝ, [matchW].filter (fun m => decide (m.score = q)) <+:
         (candidateMatches ctxW "t" emb [skillW]).filter
           fun m => decide (m.score = q))) :=
  ⟨matchSkills_ctxW_eval,
   match_results_spec ctxW "t" [skillW] [matchW] matchSkills_ctxW_eval⟩

/-- Witness for C9 at a concrete matcher instance. -/
theorem match_score_in_unit_interval_witness :
    matchSkills ctxW "t" [skillW] = some [matchW] ∧ matchW ∈ [matchW] ∧
      0 ≤ matchW.score ∧ matchW.score ≤ 1 :=
  ⟨matchSkills_ctxW_eval, List.mem_singleton.mpr rfl,
   match_score_in_unit_interval.2 ctxW "t" [skillW] [matchW] matchW
     matchSkills_ctxW_eval (List.mem_singleton.mpr rfl)⟩

/-! ### `TopicAgent._identify_concerns` (topic_agent.py 171-191) -/

/-- A concern record as consumed by the pipeline.  `importance := none`
models a JSON object without the key; `c.get("importance", 0)` reads it back
as 0. -/
structure Concern where
  concern : String
  importance : Option ℚ
  reasoning : String
  evidence : List String
  logic_chain : String
deriving DecidableEq

/-- The sort key `c.get("importance", 0)` (topic_agent.py 186). -/
def concernKey (c : Concern) : ℚ := c.importance.getD 0

/-- `TopicAgent._identify_concerns` (topic_agent.py 171-191) with the LLM
response given directly and `json.loads` abstracted: `jsonLoads s = some cs`
models a parse of `s` yielding a JSON array of concern objects; `none`
models `json.JSONDecodeError`/`ValueError`, caught by the fallback branch
(a parse yielding a non-array value makes the source raise an uncaught
`AttributeError` at `concerns.sort` and is outside this model).  On success
the list is sorted by importance descending with CPython's stable sort; on
failure a single synthetic concern is returned whose reasoning is the first
500 characters of the raw response. -/
def identifyConcerns (jsonLoads : String → Option (List Concern))
    (response : String) : List Concern :=
  match jsonLoads (extractJson response) with
  | some concerns => stableSortDesc concernKey concerns
  | none => [⟨"General Analysis", some 5, response.take 500, [], ""⟩]

/-- C2 counterexample: the LLM response `"[]"` parses as an empty JSON array
(exactly as CPython's `json.loads("[]")` does - the parser below agrees with
`json.loads` at the one point it is evaluated), and `_identify_concerns`
returns that empty list: zero concerns. -/
theorem identify_concerns_can_be_empty :
    identifyConcerns (fun s => if s = "[]" then some [] else none) "[]" = [] := by
  decide

/-- C2 (amended): `_identify_concerns` returns the parsed concern array
sorted descending by importance (missing importance read as 0, ties stable),
or on parse failure exactly one synthetic "General Analysis" concern of
importance 5 whose reasoning is the first 500 characters of the raw
response; the result is non-empty except when the response parses to an
empty array. -/
theorem identify_concerns_amended (jsonLoads : String → Option (List Concern))
    (response : String) :
    (jsonLoads (extractJson response) = none →
      identifyConcerns jsonLoads response
        = [⟨"General Analysis", some 5, response.take 500, [], ""⟩]) ∧
    (∀ cs, jsonLoads (extractJson response) = some cs →
      identifyConcerns jsonLoads response = stableSortDesc concernKey cs ∧
      (identifyConcerns jsonLoads response).Pairwise
        (fun a b => concernKey b ≤ concernKey a) ∧
      (∀ q : ℚ, (identifyConcerns jsonLoads response).filter
          (fun c => decide (concernKey c = q))
        = cs.filter fun c => decide (concernKey c = q)) ∧
      (cs ≠ [] → identifyConcerns jsonLoads response ≠ [])) := by
  constructor
  · intro h
    unfold identifyConcerns
    rw [h]
  · intro cs h
    have heq : identifyConcerns jsonLoads response = stableSortDesc concernKey cs := by
      unfold identifyConcerns
      rw [h]
    rw [heq]
    refine ⟨rfl, stableSortDesc_pairwise _ _,
      fun q => stableSortDesc_filter_eq _ _ _, ?_⟩
    intro hne hcontra
    have hlen := (stableSortDesc_perm concernKey cs).length_eq
    rw [hcontra] at hlen
    exact hne (List.eq_nil_of_length_eq_zero hlen.symm)

/-- A parser that always fails, for the fallback branch of the witness. -/
def jsonLoadsNone : String → Option (List Concern) := fun _ => none

/-- A one-element concern list, for the success branch of the witness. -/
def concernW : Concern := ⟨"c", some 2, "", [], ""⟩

/-- A parser that always returns `[concernW]`. -/
def jsonLoadsOne : String → Option (List Concern) := fun _ => some [concernW]

/-- Witness for the amended C2 theorem at concrete parsers and response. -/
theorem identify_concerns_amended_witness :
    (jsonLoadsNone (extractJson "resp") = none ∧
     identifyConcerns jsonLoadsNone "resp"
       = [⟨"General Analysis", some 5, ("resp" : String).take 500, [], ""⟩]) ∧
    (jsonLoadsOne (extractJson "resp") = some [concernW] ∧
     identifyConcerns jsonLoadsOne "resp" = stableSortDesc concernKey [concernW] ∧
     (identifyConcerns jsonLoadsOne "resp").Pairwise
       (fun a b => concernKey b ≤ concernKey a) ∧
     (∀ q : ℚ, (identifyConcerns jsonLoadsOne "resp").filter
         (fun c => decide (concernKey c = q))
       = [concernW].filter fun c => decide (concernKey c = q)) ∧
     ([concernW] ≠ [] → identifyConcerns jsonLoadsOne "resp" ≠ [])) :=
  ⟨⟨rfl, (identify_concerns_amended jsonLoadsNone "resp").1 rfl⟩,
   rfl, (identify_concerns_amended jsonLoadsOne "resp").2 [concernW] rfl⟩

/-! ### `TopicAgent._retrieve_knowledge` (topic_agent.py 143-155) -/

/-- A Python exception value: type name and message. -/
structure PyExc where
  excType : String
  msg : String
deriving DecidableEq

/-- A sub-topic dict as produced by the decomposition stage; either key may
be absent. -/
structure SubTopic where
  sub_topic : Option String
  query : Option String

/-- `st.get("query", st.get("sub_topic", ""))` (topic_agent.py 147). -/
def queryOf (st : SubTopic) : String := st.query.getD (st.sub_topic.getD "")

/-- The literal placeholder of topic_agent.py 155. -/
def noKnowledgeText : String := "No relevant knowledge found in the knowledge base."

/-- Python `str.strip()` on `String`. -/
def pyStripStr (s : String) : String := String.mk (pyStrip s.data)

/-- The per-sub-topic body of `_retrieve_knowledge` (topic_agent.py 146-153),
with `query_knowledge(config, query, mode)` abstracted as `queryFn`: a raised
exception (`.error`) is caught and the sub-topic skipped (`none`); a result
that is empty or whitespace-only (`if result and result.strip():`) is skipped
too; otherwise the formatted block is collected. -/
def retrieveItem (queryFn : String → Except PyExc String) (st : SubTopic) :
    Option String :=
  let q := queryOf st
  match queryFn q with
  | Except.error _ => none
  | Except.ok r =>
    if r ≠ "" ∧ pyStripStr r ≠ "" then
      some ("### " ++ st.sub_topic.getD q ++ "\n" ++ r)
    else none

/-- `TopicAgent._retrieve_knowledge` (topic_agent.py 143-155). -/
def retrieveKnowledge (queryFn : String → Except PyExc String)
    (subTopics : List SubTopic) : String :=
  let results := subTopics.filterMap (retrieveItem queryFn)
  if results ≠ [] then String.intercalate "\n\n" results else noKnowledgeText

/-- C6: a failing knowledge-store query for one sub-topic removes exactly
that sub-topic from the aggregation - the result is as if the failing
sub-topic had not been in the list, so retrieval proceeds for all others;
when no sub-topic yields text with non-whitespace content, the aggregated
context is the literal placeholder, which is never the empty string. -/
theorem retrieve_knowledge_spec :
    (∀ (queryFn : String → Except PyExc String) (pre post : List SubTopic)
        (st : SubTopic) (e : PyExc),
        queryFn (queryOf st) = Except.error e →
        retrieveKnowledge queryFn (pre ++ st :: post)
          = retrieveKnowledge queryFn (pre ++ post)) ∧
    (∀ (queryFn : String → Except PyExc String) (subTopics : List SubTopic),
        (∀ st ∈ subTopics, ∀ r, queryFn (queryOf st) = Except.ok r →
          pyStripStr r = "") →
        retrieveKnowledge queryFn subTopics = noKnowledgeText) ∧
    noKnowledgeText ≠ "" := by
  refine ⟨?_, ?_, by decide⟩
  · intro queryFn pre post st e he
    have hnone : retrieveItem queryFn st = none := by
      simp only [retrieveItem]
      rw [he]
    unfold retrieveKnowledge
    rw [List.filterMap_append, List.filterMap_append, List.filterMap_cons,
      hnone]
  · intro queryFn subTopics hall
    have hnil : subTopics.filterMap (retrieveItem queryFn) = [] := by
      rw [List.filterMap_eq_nil_iff]
      intro st hst
      cases hq : queryFn (queryOf st) with
      | error e =>
        simp only [retrieveItem]
        rw [hq]
      | ok r =>
        have htrim := hall st hst r hq
        simp only [retrieveItem]
        rw [hq]
        simp [htrim]
    unfold retrieveKnowledge
    rw [hnil, if_neg (by simp)]

/-- The exception used in the C6 witness. -/
def excW : PyExc := ⟨"KnowledgeBaseError", "boom"⟩

/-- Query function for the C6 witness: fails on `"qb"`, succeeds elsewhere. -/
def queryFnW : String → Except PyExc String :=
  fun q => if q = "qb" then Except.error excW else Except.ok ("R" ++ q)

/-- Query function for the C6 witness: always returns whitespace. -/
def queryFnBlank : String → Except PyExc String := fun _ => Except.ok "  "

/-- Sub-topics used in the C6 witness. -/
def stA : SubTopic := ⟨some "a", some "qa"⟩

/-- The failing sub-topic of the C6 witness. -/
def stB : SubTopic := ⟨some "b", some "qb"⟩

/-- The third sub-topic of the C6 witness. -/
def stC : SubTopic := ⟨some "c", some "qc"⟩

/-- Witness for C6: one failure among three sub-topics leaves the other two;
an all-blank store yields the placeholder. -/
theorem retrieve_knowledge_spec_witness :
    (queryFnW (queryOf stB) = Except.error excW ∧
     retrieveKnowledge queryFnW [stA, stB, stC]
       = retrieveKnowledge queryFnW [stA, stC]) ∧
    ((∀ st ∈ [stA], ∀ r, queryFnBlank (queryOf st) = Except.ok r →
        pyStripStr r = "") ∧
     retrieveKnowledge queryFnBlank [stA] = noKnowledgeText) ∧
    noKnowledgeText ≠ "" := by
  have hblank : ∀ st ∈ [stA], ∀ r, queryFnBlank (queryOf st) = Except.ok r →
      pyStripStr r = "" := by
    intro st _ r hr
    have heq : ("  " : String) = r := by
      have h2 := hr
      unfold queryFnBlank at h2
      exact Except.ok.inj h2
    rw [← heq]
    decide
  refine ⟨⟨rfl, ?_⟩, ⟨hblank, ?_⟩, retrieve_knowledge_spec.2.2⟩
  · exact retrieve_knowledge_spec.1 queryFnW [stA] [stC] stB excW rfl
  · exact retrieve_knowledge_spec.2.1 queryFnBlank [stA] hblank

/-! ### Resilient call wrapper (`retry_api_call`, retry.py 101-120, and
`_log_retry`, retry.py 125-144) -/

/-- The observable retry-notification event emitted by `_log_retry`
(retry.py 125-144): operation name, attempt number, exception type name,
message truncated to 200 characters (`str(e)[:200]`), and computed wait. -/
structure RetryEvent where
  operation : String
  attempt : Nat
  excType : String
  excMsg : String
  wait : ℚ
deriving DecidableEq

/-- The parameters `retry_api_call(operation_name, max_retries, min_wait,
max_wait)` passes to tenacity (retry.py 101-115). -/
structure RetryPolicy where
  max_retries : Nat
  min_wait : ℚ
  max_wait : ℚ
deriving DecidableEq

/-- `DEFAULT_MULTIPLIER` (retry.py 50). -/
def DEFAULT_MULTIPLIER : ℚ := 2

/-- Modelled from the spec: tenacity's `wait_exponential(multiplier=2,
min=min_wait, max=max_wait)` is an external-library combinator; per spec
section 4.4 the delay after failure number `attempt` is
`multiplier * 2^(attempt-1)` clamped into `[min_wait, max_wait]`. -/
def waitExponential (p : RetryPolicy) (attempt : Nat) : ℚ :=
  max p.min_wait (min (DEFAULT_MULTIPLIER * 2 ^ (attempt - 1)) p.max_wait)

/-- `_log_retry` (retry.py 125-144) as the event it emits. -/
def logRetryEvent (operation : String) (attempt : Nat) (exc : PyExc)
    (wait : ℚ) : RetryEvent :=
  ⟨operation, attempt, exc.excType, exc.msg.take 200, wait⟩

/-- Modelled from the spec: the tenacity retry loop configured by
`retry_api_call` (retry.py 108-115) - `stop_after_attempt(max_retries)`,
retry on any exception, `before_sleep` notification, `reraise=True`.
`op n` is the wrapped operation's behaviour on attempt `n`; `fuel` counts
the attempts still allowed including the current one.  On the final allowed
attempt the result (success or the original exception) is returned with no
further event; before every sleep one event is emitted. -/
def retryGo (p : RetryPolicy) (operation : String) {α : Type}
    (op : Nat → Except PyExc α) :
    Nat → Nat → Except PyExc α × List RetryEvent
  | attempt, 0 => (op attempt, [])
  | attempt, 1 => (op attempt, [])
  | attempt, f + 2 =>
    match op attempt with
    | Except.ok v => (Except.ok v, [])
    | Except.error e =>
      let rest := retryGo p operation op (attempt + 1) (f + 1)
      (rest.1,
       logRetryEvent operation attempt e (waitExponential p attempt) :: rest.2)

/-- The wrapped call: run attempts `1 .. max_retries`, returning the final
result together with the emitted retry events. -/
def retryCall (p : RetryPolicy) (operation : String) {α : Type}
    (op : Nat → Except PyExc α) : Except PyExc α × List RetryEvent :=
  retryGo p operation op 1 p.max_retries

theorem retryGo_all_fail {α : Type} (p : RetryPolicy) (operation : String)
    (op : Nat → Except PyExc α) (elast : PyExc) :
    ∀ fuel attempt, 1 ≤ fuel →
      (∀ a, attempt ≤ a → a < attempt + fuel → ∃ e, op a = Except.error e) →
      op (attempt + fuel - 1) = Except.error elast →
      (retryGo p operation op attempt fuel).1 = Except.error elast := by
  intro fuel
  induction fuel with
  | zero => intro attempt h1; exact absurd h1 (by norm_num)
  | succ f ihf =>
    intro attempt _ hall hlast
    cases f with
    | zero =>
      rw [show attempt + 1 - 1 = attempt from by omega] at hlast
      simp only [retryGo]
      rw [hlast]
    | succ f' =>
      obtain ⟨e, he⟩ := hall attempt (le_refl _) (by omega)
      simp only [retryGo, he]
      apply ihf (attempt + 1) (by omega)
      · intro a ha1 ha2
        exact hall a (by omega) (by omega)
      · rw [show attempt + 1 + (f' + 1) - 1 = attempt + (f' + 1 + 1) - 1 from by omega]
        exact hlast

/-- C3: the wrapper retries up to the fixed attempt count with the
exponential wait carried on each event; after exhausting all attempts it
re-raises the last attempt's original exception unchanged; and an operation
failing exactly twice then succeeding under `max_retries = 3` yields the
success value together with exactly two retry events, each carrying the
operation name, attempt number, exception type, truncated message and wait
duration. -/
theorem retry_api_call_spec :
    (∀ (α : Type) (p : RetryPolicy) (operation : String)
        (op : Nat → Except PyExc α) (v : α) (e1 e2 : PyExc),
        p.max_retries = 3 →
        op 1 = Except.error e1 → op 2 = Except.error e2 →
        op 3 = Except.ok v →
        retryCall p operation op =
          (Except.ok v,
           [logRetryEvent operation 1 e1 (waitExponential p 1),
            logRetryEvent operation 2 e2 (waitExponential p 2)])) ∧
    (∀ (α : Type) (p : RetryPolicy) (operation : String)
        (op : Nat → Except PyExc α) (elast : PyExc),
        1 ≤ p.max_retries →
        (∀ a, 1 ≤ a → a ≤ p.max_retries → ∃ e, op a = Except.error e) →
        op p.max_retries = Except.error elast →
        (retryCall p operation op).1 = Except.error elast) := by
  constructor
  · intro α p operation op v e1 e2 hmax h1 h2 h3
    unfold retryCall
    rw [hmax]
    simp [retryGo, h1, h2, h3]
  · intro α p operation op elast hmax hall hlast
    unfold retryCall
    apply retryGo_all_fail p operation op elast p.max_retries 1 hmax
    · intro a ha1 ha2
      exact hall a ha1 (by omega)
    · rw [show 1 + p.max_retries - 1 = p.max_retries from by omega]
      exact hlast

/-- Policy used in the C3 witness: max attempts 3, waits clamped to [2, 30]. -/
def policyW : RetryPolicy := ⟨3, 2, 30⟩

/-- Operation for the C3 scenario: fails on attempts 1 and 2, succeeds on 3. -/
def opFlaky : Nat → Except PyExc Nat :=
  fun a => if a < 3 then Except.error excW else Except.ok 42

/-- Operation that always fails, for the exhaustion conjunct. -/
def opBroken : Nat → Except PyExc Nat := fun _ => Except.error excW

/-- Witness for C3 at the concrete scenario of the spec. -/
theorem retry_api_call_spec_witness :
    (policyW.max_retries = 3 ∧ opFlaky 1 = Except.error excW ∧
     opFlaky 2 = Except.error excW ∧ opFlaky 3 = Except.ok 42 ∧
     retryCall policyW "LLM" opFlaky =
       (Except.ok 42,
        [logRetryEvent "LLM" 1 excW (waitExponential policyW 1),
         logRetryEvent "LLM" 2 excW (waitExponential policyW 2)])) ∧
    (1 ≤ policyW.max_retries ∧ opBroken policyW.max_retries = Except.error excW ∧
     (retryCall policyW "KB" opBroken).1 = Except.error excW) := by
  refine ⟨⟨rfl, rfl, rfl, rfl, ?_⟩, by norm_num [policyW], rfl, ?_⟩
  · exact retry_api_call_spec.1 Nat policyW "LLM" opFlaky 42 excW excW rfl rfl rfl rfl
  · exact retry_api_call_spec.2 Nat policyW "KB" opBroken excW (by norm_num [policyW])
      (fun a _ _ => ⟨excW, rfl⟩) rfl

/-! ### `parse_skill` (loader.py 60-113) -/

/-- A YAML value as returned by `yaml.safe_load`. -/
inductive YamlVal where
  | null
  | bool (b : Bool)
  | num (q : ℚ)
  | str (s : String)
  | list (xs : List YamlVal)
  | map (kvs : List (String × YamlVal))

/-- Python `receiver.get(key, default)`: `none` models the `AttributeError`
raised when the receiver is not a mapping. -/
def YamlVal.get? : YamlVal → String → YamlVal → Option YamlVal
  | YamlVal.map kvs, key, dflt => some ((kvs.lookup key).getD dflt)
  | _, _, _ => none

/-- Read a string leaf (model boundary: the claims only involve well-typed
or missing fields; Python itself would store a raw value unchecked). -/
def YamlVal.asStr? : YamlVal → Option String
  | YamlVal.str s => some s
  | _ => none

/-- Read a numeric leaf. -/
def YamlVal.asNum? : YamlVal → Option ℚ
  | YamlVal.num q => some q
  | _ => none

/-- Read a list leaf. -/
def YamlVal.asList? : YamlVal → Option (List YamlVal)
  | YamlVal.list xs => some xs
  | _ => none

/-- Read a list of strings. -/
def YamlVal.asStrList? : YamlVal → Option (List String)
  | YamlVal.list xs => xs.mapM YamlVal.asStr?
  | _ => none

/-- The trigger block of `parse_skill` (loader.py 65-70). -/
def parseTrigger (triggerRaw : YamlVal) : Option SkillTrigger := do
  let domains ← (← triggerRaw.get? "domains" (YamlVal.list [])).asStrList?
  let keywords ← (← triggerRaw.get? "keywords" (YamlVal.list [])).asStrList?
  let intent_patterns ←
    (← triggerRaw.get? "intent_patterns" (YamlVal.list [])).asStrList?
  let threshold ← (← triggerRaw.get? "threshold" (YamlVal.num 0.6)).asNum?
  pure ⟨domains, keywords, intent_patterns, threshold⟩

/-- The metadata block of `parse_skill` (loader.py 62-78). -/
def parseMetadata (metaRaw : YamlVal) : Option SkillMetadata := do
  let trigger ← parseTrigger (← metaRaw.get? "trigger" (YamlVal.map []))
  let name ← (← metaRaw.get? "name" (YamlVal.str "")).asStr?
  let display_name ← (← metaRaw.get? "display_name" (YamlVal.str "")).asStr?
  let version ← (← metaRaw.get? "version" (YamlVal.str "1.0")).asStr?
  let description ← (← metaRaw.get? "description" (YamlVal.str "")).asStr?
  pure ⟨name, display_name, version, description, trigger⟩

/-- The thinking-framework block of `parse_skill` (loader.py 80-89). -/
def parseFramework (tfRaw : YamlVal) : Option ThinkingFramework := do
  let stepsL ← (← tfRaw.get? "steps" (YamlVal.list [])).asList?
  let steps ← stepsL.mapM fun s => do
    let name ← (← s.get? "name" (YamlVal.str "")).asStr?
    let prompt ← (← s.get? "prompt" (YamlVal.str "")).asStr?
    pure (⟨name, prompt⟩ : ThinkingStep)
  let description ← (← tfRaw.get? "description" (YamlVal.str "")).asStr?
  pure ⟨description, steps⟩

/-- The tools block of `parse_skill` (loader.py 91-98). -/
def parseTools (toolsV : YamlVal) : Option (List SkillTool) := do
  let toolsL ← toolsV.asList?
  toolsL.mapM fun t => do
    let name ← (← t.get? "name" (YamlVal.str "")).asStr?
    let description ← (← t.get? "description" (YamlVal.str "")).asStr?
    let output_format ← (← t.get? "output_format" (YamlVal.str "")).asStr?
    pure (⟨name, description, output_format⟩ : SkillTool)

/-- The output-requirements block of `parse_skill` (loader.py 100-105). -/
def parseOutputReq (orRaw : YamlVal) : Option OutputRequirements := do
  let sections ← (← orRaw.get? "sections" (YamlVal.list [])).asStrList?
  let style ← (← orRaw.get? "style" (YamlVal.str "")).asStr?
  pure ⟨sections, style⟩

/-- `parse_skill(data, file_path)` (loader.py 60-113).  `none` models an
uncaught exception: on input that is not a mapping the source raises
`AttributeError` at the first `.get` (the caller `load_all_skills` catches
it and skips the file). -/
def parseSkill (data : YamlVal) (file_path : String) : Option Skill := do
  let metaRaw ← data.get? "metadata" (YamlVal.map [])
  let metadata ← parseMetadata metaRaw
  let thinking_framework ←
    parseFramework (← data.get? "thinking_framework" (YamlVal.map []))
  let tools ← parseTools (← data.get? "tools" (YamlVal.list []))
  let output_requirements ←
    parseOutputReq (← data.get? "output_requirements" (YamlVal.map []))
  pure ⟨metadata, thinking_framework, tools, output_requirements, file_path⟩

/-- The empty-default skill: empty names and lists, trigger threshold 0.6. -/
def emptyDefaultSkill : Skill :=
  { metadata := { name := "", display_name := "" } }

/-- C5 counterexample: on input that is not a mapping (here YAML `null`, as
produced by `yaml.safe_load` on an empty file) `parse_skill` raises
(modelled `none`) - the caller does not receive an empty-default Skill. -/
theorem parse_skill_not_mapping :
    parseSkill YamlVal.null "" = none ∧
    parseSkill YamlVal.null "" ≠ some emptyDefaultSkill :=
  ⟨rfl, fun h => Option.noConfusion h⟩

/-- C5 (amended): `parse_skill` tolerates missing optional fields -
trigger.threshold defaults to 0.6, all list fields to empty, and an empty
mapping yields the empty-default Skill - but on input that is not a mapping
it raises an `AttributeError` (modelled `none`), which the caller
`load_all_skills` catches to skip the file; no empty-default Skill is
returned in that case. -/
theorem parse_skill_amended :
    parseSkill (YamlVal.map []) "" = some emptyDefaultSkill ∧
    (∀ (v : YamlVal) (fp : String), (∀ kvs, v ≠ YamlVal.map kvs) →
      parseSkill v fp = none) ∧
    (∀ (kvs : List (String × YamlVal)) (fp : String) (sk : Skill),
      kvs.lookup "metadata" = none →
      parseSkill (YamlVal.map kvs) fp = some sk →
      sk.metadata.trigger = ⟨[], [], [], 0.6⟩ ∧ sk.metadata.name = "" ∧
        sk.metadata.display_name = "" ∧ sk.metadata.version = "1.0") := by
  refine ⟨rfl, ?_, ?_⟩
  · intro v fp h
    cases v with
    | map kvs => exact absurd rfl (h kvs)
    | null => rfl
    | bool b => rfl
    | num q => rfl
    | str s => rfl
    | list xs => rfl
  · intro kvs fp sk hlook hparse
    have hmeta : (YamlVal.map kvs).get? "metadata" (YamlVal.map [])
        = some (YamlVal.map []) := by
      show some ((kvs.lookup "metadata").getD (YamlVal.map []))
        = some (YamlVal.map [])
      rw [hlook]
      rfl
    unfold parseSkill at hparse
    rw [hmeta] at hparse
    simp only [Option.bind_eq_bind, Option.some_bind, Option.bind_eq_some] at hparse
    obtain ⟨meta, hmetaEq, hrest⟩ := hparse
    have : meta = ({ name := "", display_name := "" } : SkillMetadata) :=
      Option.some.inj hmetaEq.symm
    subst this
    obtain ⟨tfv, _, tf, _, toolsv, _, tools, _, orv, _, oreq, _, hsk⟩ := hrest
    cases Option.some.inj hsk
    exact ⟨rfl, rfl, rfl, rfl⟩

/-- Witness for the amended C5 theorem at concrete inputs. -/
theorem parse_skill_amended_witness :
    ((∀ kvs, YamlVal.null ≠ YamlVal.map kvs) ∧
     parseSkill YamlVal.null "" = none) ∧
    (([] : List (String × YamlVal)).lookup "metadata" = none ∧
     parseSkill (YamlVal.map []) "" = some emptyDefaultSkill ∧
     (emptyDefaultSkill.metadata.trigger = ⟨[], [], [], 0.6⟩ ∧
      emptyDefaultSkill.metadata.name = "" ∧
      emptyDefaultSkill.metadata.display_name = "" ∧
      emptyDefaultSkill.metadata.version = "1.0")) :=
  ⟨⟨fun _ h => YamlVal.noConfusion h,
    parse_skill_amended.2.1 YamlVal.null "" fun _ h => YamlVal.noConfusion h⟩,
   rfl, parse_skill_amended.1,
   parse_skill_amended.2.2 [] "" emptyDefaultSkill rfl parse_skill_amended.1⟩

end KBS
